import Mathlib

/-!
# Verification of the ReStore in-memory replicated block store

This file embeds the core data model and operations of the ReStore library
(`src/include/restore/core.hpp`, `src/include/restore/mpi_context.hpp`,
`src/include/restore/pseudo_random_permutation.hpp`) into Lean 4 and proves
(or refutes) the specification claims about them.

Machine integers are modelled as `Nat`/`Int` with explicit reductions where
overflow matters; C++ exceptions are modelled with an explicit error type and
`Except`/product-of-state results; `std::optional` members become `Option`.
-/

namespace ReStoreModel

/-! ## Common error model

C++ exception classes thrown by the sources:
`std::invalid_argument`, `std::runtime_error` (both from `core.hpp`),
`ReStoreMPI::FaultException`, `ReStoreMPI::RevokedException`
(`mpi_context.hpp`), and `std::bad_optional_access` (raised by
`std::optional::value()` on an empty optional, used in
`pushBlocksOriginalRankIds`). -/

inductive CppError where
  | invalidArgument (msg : String)
  | runtimeError (msg : String)
  | faultException
  | revokedException
  | badOptionalAccess
  deriving Repr, DecidableEq

/-- Is this error a `std::invalid_argument`? -/
def CppError.isInvalidArg : CppError → Bool
  | .invalidArgument _ => true
  | _ => false

/-! ## Store façade data model (`core.hpp`)

`OffsetMode` is the two-valued enum from `common.hpp` (used throughout
`core.hpp`). `MPIComm` models an `MPI_Comm` handle, of which the constructor
only inspects whether it equals `MPI_COMM_NULL`. The `BlockDistribution`,
`SerializedBlockStorage` and `IdentityPermutation` classes live in headers
that `core.hpp` includes; `core.hpp` only constructs them from the argument
tuples below, so we model each as a record of its constructor arguments. -/

inductive OffsetMode where
  | constant
  | lookUpTable
  deriving Repr, DecidableEq

inductive MPIComm where
  | null
  | valid (id : Nat)
  deriving Repr, DecidableEq

/-- Constructor arguments of `BlockDistribution(numRanks, numBlocks,
replicationLevel, mpiContext)` as emplaced by `core.hpp`. -/
structure BlockDistribution where
  numRanks : Nat
  numBlocks : Nat
  replicationLevel : Nat
  deriving Repr, DecidableEq

/-- Constructor arguments of `SerializedBlockStorage(blockDistribution,
offsetMode, constOffset)` as emplaced by `core.hpp`. -/
structure SerializedBlockStorage where
  distribution : BlockDistribution
  offsetMode : OffsetMode
  constOffset : Nat
  deriving Repr, DecidableEq

/-- Constructor arguments of the block-id permuter
(`BlockIdPermuter = IdentityPermutation` in the default build), emplaced as
`_blockIdPermuter.emplace(largestBlockId, blocksPerPermutationRange, seed)`. -/
structure IdPermuter where
  largestBlockId : Nat
  blocksPerPermutationRange : Nat
  seed : Nat
  deriving Repr, DecidableEq

/-- The data members of `ReStore::ReStore` that the claims observe.
The three `Option` fields model the `std::optional` members, which start
out `std::nullopt`. `originalSize` models the size of the rank manager's
original group (set from the current group by
`resetOriginalCommToCurrentComm`). -/
structure ReStoreState where
  replicationLevel : Nat
  offsetMode : OffsetMode
  constOffset : Nat
  randomPermutationSeed : Nat
  blocksPerPermutationRange : Nat
  comm : MPIComm
  originalSize : Nat
  blockDistribution : Option BlockDistribution
  serializedBlocks : Option SerializedBlockStorage
  blockIdPermuter : Option IdPermuter
  deriving Repr, DecidableEq

/-- `ReStore::ReStore(mpiCommunicator, replicationLevel, offsetMode,
constOffset, blocksPerPermutationRange, randomPermutationSeed)`:
the validation cascade from `core.hpp` lines 60–72, in source order.
`currentSize` is the size of the communicator's group (environment input
recorded into the state so that later operations can read it). -/
def construct (comm : MPIComm) (replicationLevel : Nat) (offsetMode : OffsetMode)
    (constOffset blocksPerPermutationRange randomPermutationSeed : Nat)
    (currentSize : Nat) : Except CppError ReStoreState :=
  if offsetMode = OffsetMode.lookUpTable ∧ constOffset ≠ 0 then
    .error (.invalidArgument "Explicit offset mode set but the constant offset is not zero.")
  else if offsetMode = OffsetMode.constant ∧ constOffset = 0 then
    .error (.invalidArgument "Constant offset mode requires a constOffset > 0.")
  else if replicationLevel = 0 then
    .error (.invalidArgument "What is a replication level of 0 supposed to mean?")
  else if comm = MPIComm.null then
    .error (.invalidArgument "MPI Communicator is MPI_COMM_NULL.")
  else if blocksPerPermutationRange = 0 then
    .error (.invalidArgument "blocksPerPermutationRange must be greater than zero.")
  else
    .ok { replicationLevel, offsetMode, constOffset, randomPermutationSeed,
          blocksPerPermutationRange, comm, originalSize := currentSize,
          blockDistribution := none, serializedBlocks := none, blockIdPermuter := none }

/-! ## `submitBlocks` and `submitSerializedBlocks`

Both methods run: argument checks (only `submitBlocks` has them), emplace the
id permuter, then a `try` block that resets the original group to the current
group, emplaces the `BlockDistribution` and `SerializedBlockStorage`,
serializes, and performs the sparse all-to-all data exchange plus the storage
of received messages. A `ReStoreMPI::FaultException` raised inside the `try`
block resets `_blockDistribution` and `_serializedBlocks` to `std::nullopt`
and is re-thrown; any other exception propagates without the reset.

The data exchange itself talks to MPI, so it is an environment input here:
`exchange : Except CppError Unit` is the outcome of the exchange-and-store
step (`.ok ()` = completed, `.error e` = the exception it raised). A method
returns `(thrown exception?, state after the call)`. -/

/-- `ReStore::submitBlocks` (synchronous data-exchange path; with
`asyncDataExchange = true` the same steps run on a worker thread). -/
def submitBlocks (s : ReStoreState) (totalNumberOfBlocks : Nat) (currentSize : Nat)
    (exchange : Except CppError Unit) : Option CppError × ReStoreState :=
  if s.offsetMode = OffsetMode.lookUpTable then
    (some (.runtimeError "LUT mode is not implemented yet."), s)
  else if totalNumberOfBlocks = 1 then
    (some (.runtimeError "Cannot submit a single block, please use at least two blocks."), s)
  else if totalNumberOfBlocks = 0 then
    (some (.runtimeError "Invalid number of blocks: 0."), s)
  else
    let largestBlockId := totalNumberOfBlocks - 1
    let blocksPerPermutationRange := min s.blocksPerPermutationRange largestBlockId
    let permuter : IdPermuter :=
      ⟨largestBlockId, blocksPerPermutationRange, s.randomPermutationSeed⟩
    let s1 := { s with blockIdPermuter := some permuter }
    -- try block: resetOriginalCommToCurrentComm, emplace distribution and storage,
    -- serialize, exchange and store.
    let dist : BlockDistribution := ⟨currentSize, totalNumberOfBlocks, s.replicationLevel⟩
    let s2 := { s1 with originalSize := currentSize,
                        blockDistribution := some dist,
                        serializedBlocks := some ⟨dist, s.offsetMode, s.constOffset⟩ }
    match exchange with
    | .ok _ => (none, s2)
    | .error CppError.faultException =>
        (some .faultException, { s2 with blockDistribution := none, serializedBlocks := none })
    | .error e => (some e, s2)

/-- `ReStore::submitSerializedBlocks`: no block-count checks; the permuter is
emplaced with dummy arguments `(0, 0, 0)`; otherwise the same
try/catch-Fault structure as `submitBlocks`. -/
def submitSerializedBlocks (s : ReStoreState) (globalNumberOfBlocks : Nat)
    (currentSize : Nat) (exchange : Except CppError Unit) :
    Option CppError × ReStoreState :=
  let s1 := { s with blockIdPermuter := some ⟨0, 0, 0⟩ }
  let dist : BlockDistribution := ⟨currentSize, globalNumberOfBlocks, s.replicationLevel⟩
  let s2 := { s1 with originalSize := currentSize,
                      blockDistribution := some dist,
                      serializedBlocks := some ⟨dist, s.offsetMode, s.constOffset⟩ }
  match exchange with
  | .ok _ => (none, s2)
  | .error CppError.faultException =>
      (some .faultException, { s2 with blockDistribution := none, serializedBlocks := none })
  | .error e => (some e, s2)

/-- Did this call raise a `std::invalid_argument`? -/
def exceptIsInvalidArg : Except CppError ReStoreState → Bool
  | .error e => e.isInvalidArg
  | .ok _ => false

/-- A valid store configuration used as a concrete test fixture:
constant offset mode with 4-byte blocks, replication level 3. -/
def sExample : ReStoreState :=
  { replicationLevel := 3, offsetMode := OffsetMode.constant, constOffset := 4,
    randomPermutationSeed := 0, blocksPerPermutationRange := 4096,
    comm := MPIComm.valid 1, originalSize := 4,
    blockDistribution := none, serializedBlocks := none, blockIdPermuter := none }

/-- C8: the `ReStore` constructor raises `std::invalid_argument` exactly when
one of the five documented conditions holds (look-up-table mode with a
non-zero constant offset, constant mode with a zero constant offset, a zero
replication level, a null communicator, or a zero
`blocksPerPermutationRange`), and otherwise constructs without error. -/
theorem construct_invalidArgument_iff (comm : MPIComm) (replicationLevel : Nat)
    (offsetMode : OffsetMode) (constOffset blocksPerPermutationRange seed currentSize : Nat) :
    (exceptIsInvalidArg (construct comm replicationLevel offsetMode constOffset
        blocksPerPermutationRange seed currentSize) = true ↔
      ((offsetMode = OffsetMode.lookUpTable ∧ constOffset ≠ 0) ∨
       (offsetMode = OffsetMode.constant ∧ constOffset = 0) ∨
       replicationLevel = 0 ∨ comm = MPIComm.null ∨ blocksPerPermutationRange = 0)) ∧
    ((construct comm replicationLevel offsetMode constOffset
        blocksPerPermutationRange seed currentSize).isOk = true ↔
      ¬((offsetMode = OffsetMode.lookUpTable ∧ constOffset ≠ 0) ∨
        (offsetMode = OffsetMode.constant ∧ constOffset = 0) ∨
        replicationLevel = 0 ∨ comm = MPIComm.null ∨ blocksPerPermutationRange = 0)) := by
  unfold construct
  split_ifs with h1 h2 h3 h4 h5 <;>
    simp_all [exceptIsInvalidArg, CppError.isInvalidArg, Except.isOk, Except.toBool]

/-- C4 (counterexample): at `totalNumberOfBlocks = 0` on a validly
constructed store, `submitBlocks` raises a `std::runtime_error`
("Invalid number of blocks: 0."), not a `std::invalid_argument` as the claim
states. -/
theorem submitBlocks_zero_raises_runtimeError :
    (submitBlocks sExample 0 4 (.ok ())).1 =
      some (CppError.runtimeError "Invalid number of blocks: 0.") ∧
    (submitBlocks sExample 0 4 (.ok ())).1.map CppError.isInvalidArg = some false := by
  decide

/-- C4 (amended): `submitBlocks` raises an error — a `std::runtime_error`,
not `std::invalid_argument` — whenever `totalNumberOfBlocks` is 0 or 1, and
the store's state (block distribution, serialized block storage, id
permuter — indeed every data member) is untouched. -/
theorem submitBlocks_invalid_blockCount (s : ReStoreState) (N currentSize : Nat)
    (exchange : Except CppError Unit) (h : N = 0 ∨ N = 1) :
    (∃ msg, (submitBlocks s N currentSize exchange).1 = some (CppError.runtimeError msg)) ∧
    (submitBlocks s N currentSize exchange).2 = s := by
  unfold submitBlocks
  rcases h with h | h <;> subst h <;> split_ifs with h1 h2 <;> simp_all

/-- C4 (witness for the amended theorem). -/
theorem submitBlocks_invalid_blockCount_witness :
    ((1 : Nat) = 0 ∨ (1 : Nat) = 1) ∧
    ((∃ msg, (submitBlocks sExample 1 4 (.ok ())).1 = some (CppError.runtimeError msg)) ∧
     (submitBlocks sExample 1 4 (.ok ())).2 = sExample) :=
  ⟨Or.inr rfl, submitBlocks_invalid_blockCount sExample 1 4 (.ok ()) (Or.inr rfl)⟩

/-- C2: if the data exchange of `submitBlocks` or `submitSerializedBlocks`
raises a `FaultException`, the store resets both its `BlockDistribution`
and its `SerializedBlockStorage` to `std::nullopt` and re-raises the same
exception. -/
theorem submit_fault_resets_state (s : ReStoreState) (N currentSize : Nat)
    (hmode : s.offsetMode ≠ OffsetMode.lookUpTable) (hN : 2 ≤ N) :
    ((submitBlocks s N currentSize (.error .faultException)).1 =
        some CppError.faultException ∧
     (submitBlocks s N currentSize (.error .faultException)).2.blockDistribution = none ∧
     (submitBlocks s N currentSize (.error .faultException)).2.serializedBlocks = none) ∧
    ((submitSerializedBlocks s N currentSize (.error .faultException)).1 =
        some CppError.faultException ∧
     (submitSerializedBlocks s N currentSize (.error .faultException)).2.blockDistribution
        = none ∧
     (submitSerializedBlocks s N currentSize (.error .faultException)).2.serializedBlocks
        = none) := by
  unfold submitBlocks submitSerializedBlocks
  split_ifs with h1 h2 h3 <;> simp_all

/-- C2 (witness). -/
theorem submit_fault_resets_state_witness :
    sExample.offsetMode ≠ OffsetMode.lookUpTable ∧ (2 ≤ 5) ∧
    (((submitBlocks sExample 5 4 (.error .faultException)).1 =
        some CppError.faultException ∧
      (submitBlocks sExample 5 4 (.error .faultException)).2.blockDistribution = none ∧
      (submitBlocks sExample 5 4 (.error .faultException)).2.serializedBlocks = none) ∧
     ((submitSerializedBlocks sExample 5 4 (.error .faultException)).1 =
        some CppError.faultException ∧
      (submitSerializedBlocks sExample 5 4 (.error .faultException)).2.blockDistribution
        = none ∧
      (submitSerializedBlocks sExample 5 4 (.error .faultException)).2.serializedBlocks
        = none)) :=
  ⟨by decide, by decide, submit_fault_resets_state sExample 5 4 (by decide) (by decide)⟩

/-- C3: `submitBlocks` may be called a second time: the second call raises no
error (in particular no double-submission error) and replaces the
`BlockDistribution`, `SerializedBlockStorage` and id permuter with ones
rebuilt from the second call's inputs. -/
theorem submitBlocks_twice (s : ReStoreState) (N₁ N₂ cs₁ cs₂ : Nat)
    (hmode : s.offsetMode ≠ OffsetMode.lookUpTable) (hN₁ : 2 ≤ N₁) (hN₂ : 2 ≤ N₂) :
    (submitBlocks s N₁ cs₁ (.ok ())).1 = none ∧
    (submitBlocks (submitBlocks s N₁ cs₁ (.ok ())).2 N₂ cs₂ (.ok ())).1 = none ∧
    (submitBlocks (submitBlocks s N₁ cs₁ (.ok ())).2 N₂ cs₂ (.ok ())).2.blockDistribution =
      some ⟨cs₂, N₂, s.replicationLevel⟩ ∧
    (submitBlocks (submitBlocks s N₁ cs₁ (.ok ())).2 N₂ cs₂ (.ok ())).2.serializedBlocks =
      some ⟨⟨cs₂, N₂, s.replicationLevel⟩, s.offsetMode, s.constOffset⟩ ∧
    (submitBlocks (submitBlocks s N₁ cs₁ (.ok ())).2 N₂ cs₂ (.ok ())).2.blockIdPermuter =
      some ⟨N₂ - 1, min s.blocksPerPermutationRange (N₂ - 1), s.randomPermutationSeed⟩ := by
  unfold submitBlocks
  split_ifs with h1 h2 h3 h4 h5 h6 <;> simp_all

/-- C3 (witness). -/
theorem submitBlocks_twice_witness :
    sExample.offsetMode ≠ OffsetMode.lookUpTable ∧ (2 ≤ 6) ∧ (2 ≤ 9) ∧
    ((submitBlocks sExample 6 4 (.ok ())).1 = none ∧
     (submitBlocks (submitBlocks sExample 6 4 (.ok ())).2 9 3 (.ok ())).1 = none ∧
     (submitBlocks (submitBlocks sExample 6 4 (.ok ())).2 9 3 (.ok ())).2.blockDistribution =
       some ⟨3, 9, sExample.replicationLevel⟩ ∧
     (submitBlocks (submitBlocks sExample 6 4 (.ok ())).2 9 3 (.ok ())).2.serializedBlocks =
       some ⟨⟨3, 9, sExample.replicationLevel⟩, sExample.offsetMode, sExample.constOffset⟩ ∧
     (submitBlocks (submitBlocks sExample 6 4 (.ok ())).2 9 3 (.ok ())).2.blockIdPermuter =
       some ⟨9 - 1, min sExample.blocksPerPermutationRange (9 - 1),
             sExample.randomPermutationSeed⟩) :=
  ⟨by decide, by decide, by decide,
   submitBlocks_twice sExample 6 9 4 3 (by decide) (by decide) (by decide)⟩

/-! ## Feistel pseudo-random permutation
(`pseudo_random_permutation.hpp`, class `FeistelPseudoRandomPermutation`)

The round function is `XXH64(&right, 8, key)`, an external library hash; it
enters the model as an arbitrary `hash : Nat → Nat → Nat` (value, key). The
helper `most_significant_bit_set` comes from `helpers.hpp` (not under
`src/`); by its name and the spec ("round the Feistel domain up to an even
number of bits") it is the 0-based index of the most significant set bit,
`Nat.log2`. -/

def mostSignificantBitSet (n : Nat) : Nat := Nat.log2 n

/-- `_compute_size_of_halves`: `num_significant_bits`, incremented once if
odd so both halves get the same number of bits. -/
def numSignificantBits (maxValue : Nat) : Nat :=
  let n := mostSignificantBitSet maxValue + 1
  if n % 2 = 1 then n + 1 else n

/-- `_bits_left_half` (= `_bits_right_half`, as `numSignificantBits` is
even). -/
def halfBits (maxValue : Nat) : Nat := numSignificantBits maxValue / 2

/-- `_right_half(n)`: `n & _right_half_mask` where
`_right_half_mask = 2^h − 1`. -/
def rightHalf (h n : Nat) : Nat := n % 2 ^ h

/-- `_left_half(n)`: `(n << _extra_bits) >> _left_half_shift_width` in
64-bit arithmetic; with `_extra_bits = 64 − 2h` and shift width `64 − h`
this equals `(n mod 2^(2h)) / 2^h`. -/
def leftHalf (h n : Nat) : Nat := n % 2 ^ (2 * h) / 2 ^ h

/-- `_combine_halves(left, right)`: `left << _bits_right_half | right`. -/
def combineHalves (h l r : Nat) : Nat := l * 2 ^ h ||| r

/-- The forward round loop of `_feistel` (`reverse == false`): for each key
in order, `tmp = left ^ _right_half(xxhash(right, key)); left = right;
right = tmp`. -/
def rounds (hash : Nat → Nat → Nat) (h : Nat) : List Nat → Nat × Nat → Nat × Nat
  | [], p => p
  | key :: keys, (l, r) => rounds hash h keys (r, l ^^^ rightHalf h (hash r key))

/-- The backward round loop of `_feistel` (`reverse == true`): the keys are
consumed from last to first, each round computing
`tmp = right ^ _right_half(xxhash(left, key)); right = left; left = tmp`. -/
def roundsRev (hash : Nat → Nat → Nat) (h : Nat) : List Nat → Nat × Nat → Nat × Nat
  | [], p => p
  | key :: keys, p =>
    let q := roundsRev hash h keys p
    (q.2 ^^^ rightHalf h (hash q.1 key), q.1)

/-- `_feistel(n, reverse)`: split `n` into halves, run the rounds, and
recombine. -/
def feistel (hash : Nat → Nat → Nat) (h : Nat) (keys : List Nat) (reverse : Bool)
    (n : Nat) : Nat :=
  let p := if reverse then roundsRev hash h keys (leftHalf h n, rightHalf h n)
           else rounds hash h keys (leftHalf h n, rightHalf h n)
  combineHalves h p.1 p.2

/-- The size of the (balanced, bit-rounded) Feistel domain `[0, 2^(2h))`. -/
def domainSize (maxValue : Nat) : Nat := 2 ^ (2 * halfBits maxValue)

/-- The do-while loop of `_cycle_walk`, with explicit fuel. The loop applies
`F` at least once and stops at the first value `≤ M`. The C++ loop is
unbounded; `domainSize` fuel is proved sufficient below, so the fueled model
agrees with the source loop wherever the result is `some`. -/
def cycleWalkAux (F : Nat → Nat) (M : Nat) : Nat → Nat → Option Nat
  | 0, _ => none
  | fuel + 1, n =>
    let m := F n
    if m ≤ M then some m else cycleWalkAux F M fuel m

/-- The state of a constructed `FeistelPseudoRandomPermutation`
(`_num_rounds` is implied by `_keys.size()` after construction). -/
structure FeistelPseudoRandomPermutation where
  max_value : Nat
  keys : List Nat
  deriving Repr, DecidableEq

namespace FeistelPseudoRandomPermutation

/-- The constructor: throws `invalid_argument` unless
`keys.size() == num_rounds`. -/
def construct (max_value : Nat) (keys : List Nat) (num_rounds : Nat) :
    Except CppError FeistelPseudoRandomPermutation :=
  if keys.length ≠ num_rounds then
    .error (.invalidArgument "Number of keys must be equal to the number of rounds.")
  else
    .ok ⟨max_value, keys⟩

/-- `_cycle_walk(n, reverse)`: throws `invalid_argument` (modelled `none`)
when `n > _max_value`, otherwise walks `_feistel` until the value re-enters
`[0, max_value]`. -/
def cycleWalk (hash : Nat → Nat → Nat) (P : FeistelPseudoRandomPermutation)
    (n : Nat) (reverse : Bool) : Option Nat :=
  if P.max_value < n then none
  else
    cycleWalkAux (feistel hash (halfBits P.max_value) P.keys reverse) P.max_value
      (domainSize P.max_value) n

/-- `f(n)`: the forward permutation. -/
def f (hash : Nat → Nat → Nat) (P : FeistelPseudoRandomPermutation) (n : Nat) :
    Option Nat :=
  P.cycleWalk hash n false

/-- `finv(n)`: the inverse permutation. -/
def finv (hash : Nat → Nat → Nat) (P : FeistelPseudoRandomPermutation) (n : Nat) :
    Option Nat :=
  P.cycleWalk hash n true

end FeistelPseudoRandomPermutation

/-! ### Cycle-walking, generically

`F` is a function mapping `[0, D)` into itself with a pointwise left inverse
`G` on `[0, D)`, and `M < D` is the domain maximum. Iterating `F` from a
point of `[0, M]` must re-enter `[0, M]` within `D` steps (the orbit returns
to its seed, by pigeonhole and injectivity), and walking back with `G` from
the first re-entry point retraces the orbit exactly. -/

section CycleWalk

variable {F G : Nat → Nat} {M D : Nat}

lemma iterate_mem (hFD : ∀ n, n < D → F n < D) {n : Nat} (hn : n < D) (k : Nat) :
    F^[k] n < D := by
  induction k with
  | zero => simpa using hn
  | succ k ih => rw [Function.iterate_succ_apply']; exact hFD _ ih

lemma iterate_cancel (hFD : ∀ n, n < D → F n < D)
    (hGF : ∀ n, n < D → G (F n) = n) {n : Nat} (hn : n < D) :
    ∀ a b, a ≤ b → F^[a] n = F^[b] n → n = F^[b - a] n := by
  intro a
  induction a with
  | zero => intro b _ hab; simpa using hab
  | succ a ih =>
    intro b hab h
    obtain ⟨b', rfl⟩ : ∃ b', b = b' + 1 := ⟨b - 1, by omega⟩
    rw [Function.iterate_succ_apply', Function.iterate_succ_apply'] at h
    have h' : F^[a] n = F^[b'] n := by
      have hc := congrArg G h
      rwa [hGF _ (iterate_mem hFD hn a), hGF _ (iterate_mem hFD hn b')] at hc
    simpa [Nat.succ_sub_succ] using ih b' (by omega) h'

lemma exists_orbit_return (hFD : ∀ n, n < D → F n < D)
    (hGF : ∀ n, n < D → G (F n) = n) {n : Nat} (hn : n < D) :
    ∃ k, 0 < k ∧ k ≤ D ∧ F^[k] n = n := by
  have hD : 0 < D := Nat.pos_of_ne_zero (by rintro rfl; omega)
  obtain ⟨i, j, hij, hmap⟩ := Fintype.exists_ne_map_eq_of_card_lt
    (fun i : Fin (D + 1) => (⟨F^[(i : Nat)] n, iterate_mem hFD hn i⟩ : Fin D))
    (by simp)
  have hval : F^[(i : Nat)] n = F^[(j : Nat)] n := congrArg Fin.val hmap
  rcases Nat.lt_or_ge (i : Nat) (j : Nat) with hlt | hge
  · exact ⟨(j : Nat) - (i : Nat), by omega,
      by have := j.isLt; omega,
      (iterate_cancel hFD hGF hn i j (by omega) hval).symm⟩
  · have hlt : (j : Nat) < (i : Nat) := by
      rcases Nat.lt_or_eq_of_le hge with h | h
      · exact h
      · exact absurd (Fin.ext h.symm) hij
    exact ⟨(i : Nat) - (j : Nat), by omega,
      by have := i.isLt; omega,
      (iterate_cancel hFD hGF hn j i (by omega) hval.symm).symm⟩

lemma cycleWalkAux_eq_iterate (j : Nat) :
    ∀ fuel n, 0 < j → j ≤ fuel → F^[j] n ≤ M →
      (∀ i, 0 < i → i < j → M < F^[i] n) →
      cycleWalkAux F M fuel n = some (F^[j] n) := by
  induction j with
  | zero => omega
  | succ j ih =>
    intro fuel n _ hjf hle hmin
    obtain ⟨fuel', rfl⟩ : ∃ fuel', fuel = fuel' + 1 := ⟨fuel - 1, by omega⟩
    show (if F n ≤ M then some (F n) else cycleWalkAux F M fuel' (F n)) = _
    rcases Nat.eq_zero_or_pos j with rfl | hj
    · have h1 : F n ≤ M := by simpa using hle
      rw [if_pos h1]
      simp
    · have hFn : M < F n := by simpa using hmin 1 Nat.one_pos (by omega)
      rw [if_neg (by omega)]
      rw [Function.iterate_succ_apply] at hle
      refine Eq.trans (ih fuel' (F n) hj (by omega) hle ?_) ?_
      · intro i hi hij
        have := hmin (i + 1) (by omega) (by omega)
        rwa [Function.iterate_succ_apply] at this
      · rw [← Function.iterate_succ_apply]

theorem cycleWalk_roundtrip (hFD : ∀ n, n < D → F n < D)
    (hGF : ∀ n, n < D → G (F n) = n) (hMD : M < D) {n : Nat} (hn : n ≤ M) :
    ∃ m, cycleWalkAux F M D n = some m ∧ m ≤ M ∧ cycleWalkAux G M D m = some n := by
  have hnD : n < D := lt_of_le_of_lt hn hMD
  obtain ⟨k, hk0, hkD, hkret⟩ := exists_orbit_return hFD hGF hnD
  have hex : ∃ j, 0 < j ∧ F^[j] n ≤ M := ⟨k, hk0, by rw [hkret]; exact hn⟩
  have hj₀ := Nat.find_spec hex
  set j₀ := Nat.find hex with hj₀def
  have hj₀min : ∀ i, 0 < i → i < j₀ → M < F^[i] n := by
    intro i hi hij
    have := Nat.find_min hex hij
    omega
  have hj₀D : j₀ ≤ D := le_trans (Nat.find_min' hex ⟨hk0, by rw [hkret]; exact hn⟩) hkD
  have hfwd : cycleWalkAux F M D n = some (F^[j₀] n) :=
    cycleWalkAux_eq_iterate j₀ D n hj₀.1 hj₀D hj₀.2 hj₀min
  have hback : ∀ i, i ≤ j₀ → G^[i] (F^[j₀] n) = F^[j₀ - i] n := by
    intro i
    induction i with
    | zero => simp
    | succ i ih =>
      intro hi
      rw [Function.iterate_succ_apply', ih (by omega)]
      obtain ⟨s, hs⟩ : ∃ s, j₀ - i = s + 1 := ⟨j₀ - i - 1, by omega⟩
      rw [hs, Function.iterate_succ_apply', hGF _ (iterate_mem hFD hnD s)]
      congr 1
      omega
  refine ⟨F^[j₀] n, hfwd, hj₀.2, ?_⟩
  have hres : cycleWalkAux G M D (F^[j₀] n) = some (G^[j₀] (F^[j₀] n)) := by
    refine cycleWalkAux_eq_iterate j₀ D (F^[j₀] n) hj₀.1 hj₀D ?_ ?_
    · rw [hback j₀ le_rfl]; simpa using hn
    · intro i hi hij
      rw [hback i (by omega)]
      exact hj₀min (j₀ - i) (by omega) (by omega)
  rw [hres, hback j₀ le_rfl]
  simp

end CycleWalk

/-! ### The Feistel network is a permutation of `[0, 2^(2h))` -/

lemma lor_eq_add {l r h : Nat} (hr : r < 2 ^ h) : l * 2 ^ h ||| r = l * 2 ^ h + r := by
  apply Nat.eq_of_testBit_eq
  intro i
  rw [Nat.testBit_lor, Nat.mul_comm, Nat.testBit_mul_pow_two_add _ hr,
    Nat.testBit_mul_pow_two]
  rcases Nat.lt_or_ge i h with hi | hi
  · simp [hi, Nat.not_le_of_lt hi]
  · simp [hi, Nat.not_lt_of_le hi,
      Nat.testBit_lt_two_pow (Nat.lt_of_lt_of_le hr (Nat.pow_le_pow_right (by omega) hi))]

lemma rightHalf_lt (h n : Nat) : rightHalf h n < 2 ^ h :=
  Nat.mod_lt _ (Nat.pos_pow_of_pos h (by omega))

lemma leftHalf_lt (h n : Nat) : leftHalf h n < 2 ^ h := by
  rw [leftHalf, Nat.div_lt_iff_lt_mul (Nat.pos_pow_of_pos h (by omega)), ← Nat.pow_add]
  calc n % 2 ^ (2 * h) < 2 ^ (2 * h) :=
        Nat.mod_lt _ (Nat.pos_pow_of_pos _ (by omega))
    _ ≤ 2 ^ (h + h) := by rw [Nat.two_mul]

lemma rounds_lt (hash : Nat → Nat → Nat) (h : Nat) (keys : List Nat) :
    ∀ l r, l < 2 ^ h → r < 2 ^ h →
      (rounds hash h keys (l, r)).1 < 2 ^ h ∧ (rounds hash h keys (l, r)).2 < 2 ^ h := by
  induction keys with
  | nil => intro l r hl hr; exact ⟨hl, hr⟩
  | cons key keys ih =>
    intro l r hl hr
    exact ih r _ hr (Nat.xor_lt_two_pow hl (rightHalf_lt h _))

lemma roundsRev_lt (hash : Nat → Nat → Nat) (h : Nat) (keys : List Nat) :
    ∀ l r, l < 2 ^ h → r < 2 ^ h →
      (roundsRev hash h keys (l, r)).1 < 2 ^ h ∧ (roundsRev hash h keys (l, r)).2 < 2 ^ h := by
  induction keys with
  | nil => intro l r hl hr; exact ⟨hl, hr⟩
  | cons key keys ih =>
    intro l r hl hr
    obtain ⟨h1, h2⟩ := ih l r hl hr
    exact ⟨Nat.xor_lt_two_pow h2 (rightHalf_lt h _), h1⟩

/-- Running the backward rounds after the forward rounds restores the pair:
the backward loop consumes the keys in reversed order and each round undoes
one forward round by XOR cancellation. -/
lemma roundsRev_rounds (hash : Nat → Nat → Nat) (h : Nat) (keys : List Nat) :
    ∀ l r, roundsRev hash h keys (rounds hash h keys (l, r)) = (l, r) := by
  induction keys with
  | nil => intro l r; rfl
  | cons key keys ih =>
    intro l r
    show (let q := roundsRev hash h keys (rounds hash h keys (r, _));
          (q.2 ^^^ rightHalf h (hash q.1 key), q.1)) = (l, r)
    rw [ih r (l ^^^ rightHalf h (hash r key))]
    simp [Nat.xor_cancel_right]

lemma combineHalves_eq {h l r : Nat} (hr : r < 2 ^ h) :
    combineHalves h l r = l * 2 ^ h + r :=
  lor_eq_add hr

lemma combineHalves_lt {h l r : Nat} (hl : l < 2 ^ h) (hr : r < 2 ^ h) :
    combineHalves h l r < 2 ^ (2 * h) := by
  rw [combineHalves_eq hr, Nat.two_mul, Nat.pow_add]
  calc l * 2 ^ h + r < l * 2 ^ h + 2 ^ h := by omega
    _ = (l + 1) * 2 ^ h := by ring
    _ ≤ 2 ^ h * 2 ^ h := by
        have : l + 1 ≤ 2 ^ h := hl
        calc (l + 1) * 2 ^ h ≤ 2 ^ h * 2 ^ h := Nat.mul_le_mul_right _ this
          _ = 2 ^ h * 2 ^ h := rfl

lemma leftHalf_combineHalves {h l r : Nat} (hl : l < 2 ^ h) (hr : r < 2 ^ h) :
    leftHalf h (combineHalves h l r) = l := by
  rw [leftHalf, Nat.mod_eq_of_lt (combineHalves_lt hl hr), combineHalves_eq hr,
    Nat.mul_comm l, Nat.mul_add_div (Nat.pos_pow_of_pos h (by omega)),
    Nat.div_eq_of_lt hr, Nat.add_zero]

lemma rightHalf_combineHalves {h l r : Nat} (hr : r < 2 ^ h) :
    rightHalf h (combineHalves h l r) = r := by
  rw [rightHalf, combineHalves_eq hr, Nat.mul_comm l, Nat.mul_add_mod,
    Nat.mod_eq_of_lt hr]

lemma combineHalves_split {h n : Nat} (hn : n < 2 ^ (2 * h)) :
    combineHalves h (leftHalf h n) (rightHalf h n) = n := by
  rw [combineHalves_eq (rightHalf_lt h n), leftHalf, rightHalf, Nat.mod_eq_of_lt hn]
  exact Nat.div_add_mod' n (2 ^ h)

lemma feistel_false_def (hash : Nat → Nat → Nat) (h : Nat) (keys : List Nat) (n : Nat) :
    feistel hash h keys false n =
      combineHalves h (rounds hash h keys (leftHalf h n, rightHalf h n)).1
        (rounds hash h keys (leftHalf h n, rightHalf h n)).2 := rfl

lemma feistel_true_def (hash : Nat → Nat → Nat) (h : Nat) (keys : List Nat) (n : Nat) :
    feistel hash h keys true n =
      combineHalves h (roundsRev hash h keys (leftHalf h n, rightHalf h n)).1
        (roundsRev hash h keys (leftHalf h n, rightHalf h n)).2 := rfl

lemma feistel_lt (hash : Nat → Nat → Nat) (h : Nat) (keys : List Nat) (reverse : Bool)
    (n : Nat) : feistel hash h keys reverse n < 2 ^ (2 * h) := by
  cases reverse with
  | false =>
    rw [feistel_false_def]
    obtain ⟨h1, h2⟩ := rounds_lt hash h keys _ _ (leftHalf_lt h n) (rightHalf_lt h n)
    exact combineHalves_lt h1 h2
  | true =>
    rw [feistel_true_def]
    obtain ⟨h1, h2⟩ := roundsRev_lt hash h keys _ _ (leftHalf_lt h n) (rightHalf_lt h n)
    exact combineHalves_lt h1 h2

/-- The reverse Feistel inverts the forward Feistel on the rounded bit
domain. -/
lemma feistel_leftInverse (hash : Nat → Nat → Nat) (h : Nat) (keys : List Nat)
    {n : Nat} (hn : n < 2 ^ (2 * h)) :
    feistel hash h keys true (feistel hash h keys false n) = n := by
  rw [feistel_false_def, feistel_true_def]
  obtain ⟨h1, h2⟩ := rounds_lt hash h keys _ _ (leftHalf_lt h n) (rightHalf_lt h n)
  rw [leftHalf_combineHalves h1 h2, rightHalf_combineHalves h2]
  have hr := roundsRev_rounds hash h keys (leftHalf h n) (rightHalf h n)
  rw [hr]
  exact combineHalves_split hn

/-- The domain maximum fits below the rounded power-of-two domain size. -/
lemma maxValue_lt_domainSize (maxValue : Nat) : maxValue < domainSize maxValue := by
  have h1 : maxValue < 2 ^ (Nat.log2 maxValue + 1) := Nat.lt_log2_self
  have h2 : Nat.log2 maxValue + 1 ≤ 2 * halfBits maxValue := by
    rw [halfBits, numSignificantBits, mostSignificantBitSet]
    split_ifs with hpar <;> omega
  exact Nat.lt_of_lt_of_le h1 (Nat.pow_le_pow_right (by omega) h2)

/-- C1: for every domain maximum `M`, every round hash function, and every
key vector whose length equals the number of rounds, the Feistel permutation
is a bijection on `[0, M]`: for every `x` in `[0, M]`, `f(x)` lies in
`[0, M]` and `finv(f(x)) = x` (apply = `f`, inverse = `finv`). -/
theorem feistel_permutation_roundtrip (hash : Nat → Nat → Nat) (M : Nat)
    (keys : List Nat) (num_rounds : Nat) (hkeys : keys.length = num_rounds)
    (x : Nat) (hx : x ≤ M) :
    ∃ P, FeistelPseudoRandomPermutation.construct M keys num_rounds = .ok P ∧
      ∃ y, P.f hash x = some y ∧ y ≤ M ∧ P.finv hash y = some x := by
  refine ⟨⟨M, keys⟩, by simp [FeistelPseudoRandomPermutation.construct, hkeys], ?_⟩
  obtain ⟨m, h1, h2, h3⟩ := cycleWalk_roundtrip
    (F := feistel hash (halfBits M) keys false)
    (G := feistel hash (halfBits M) keys true)
    (D := domainSize M) (M := M)
    (fun n _ => feistel_lt hash (halfBits M) keys false n)
    (fun n hn => feistel_leftInverse hash (halfBits M) keys hn)
    (maxValue_lt_domainSize M) hx
  refine ⟨m, ?_, h2, ?_⟩
  · rw [FeistelPseudoRandomPermutation.f, FeistelPseudoRandomPermutation.cycleWalk,
      if_neg (not_lt.mpr hx)]
    exact h1
  · rw [FeistelPseudoRandomPermutation.finv, FeistelPseudoRandomPermutation.cycleWalk,
      if_neg (not_lt.mpr h2)]
    exact h3

/-- C1 (witness): a concrete domain maximum, hash, key vector and point. -/
theorem feistel_permutation_roundtrip_witness :
    ([11, 22, 33, 44] : List Nat).length = 4 ∧ (3 : Nat) ≤ 5 ∧
    (∃ P, FeistelPseudoRandomPermutation.construct 5 [11, 22, 33, 44] 4 = .ok P ∧
      ∃ y, P.f (fun a k => a * 31 + k) 3 = some y ∧ y ≤ 5 ∧
        P.finv (fun a k => a * 31 + k) y = some 3) :=
  ⟨rfl, by decide,
   feistel_permutation_roundtrip (fun a k => a * 31 + k) 5 [11, 22, 33, 44] 4 rfl 3
     (by decide)⟩

/-! ## LCG pseudo-random permutation
(`pseudo_random_permutation.hpp`, class `LCGPseudoRandomPermutation`)

The class works on `int64_t`; we model values as `Int` and the bitwise AND
against the non-negative `_modulo_and_mask` by reducing the two's-complement
bit pattern, i.e. `n & mask = (n mod 2^64) & mask`. All concrete values the
claims evaluate stay far below the 64-bit overflow boundary. -/

/-- The bit-smearing of `_choose_modulo` on the already-decremented value:
`x |= x >> 1; x |= x >> 2; x |= x >> 4; x |= x >> 8; x |= x >> 16;
x |= x >> 32`, copying the highest set bit into every lower position. -/
def smearBits (x : Nat) : Nat :=
  let a := x ||| x >>> 1
  let b := a ||| a >>> 2
  let c := b ||| b >>> 4
  let d := c ||| c >>> 8
  let e := d ||| d >>> 16
  e ||| e >>> 32

/-- `int64_t & mask` for a non-negative `mask`, via the two's-complement bit
pattern of the left operand. -/
def int64And (n : Int) (mask : Nat) : Int :=
  (((n.emod (2 ^ 64)).toNat &&& mask : Nat) : Int)

/-- The `while (a > 1)` loop of `_modulo_multiplicative_inverse`
(extended Euclid, Rosetta-code variant). One fuel unit per iteration: the
C++ loop terminates because its second operand strictly decreases; 128 units
are ample for every value this file evaluates. The loop only divides
non-negative operands, where C++ truncated division and Lean's `Int`
division agree. -/
def moduloMultiplicativeInverseLoop : Nat → Int → Int → Int → Int → Int
  | 0, _, _, _, x1 => x1
  | fuel + 1, a, m, x0, x1 =>
    if 1 < a then
      let q := a / m
      moduloMultiplicativeInverseLoop fuel m (a % m) (x1 - q * x0) x0
    else x1

/-- `_modulo_multiplicative_inverse(a, m)`. -/
def moduloMultiplicativeInverse (a m : Int) : Int :=
  if m = 1 then 1
  else
    let x1 := moduloMultiplicativeInverseLoop 128 a m 0 1
    if x1 < 0 then x1 + m else x1

/-- The members of a constructed `LCGPseudoRandomPermutation`. -/
structure LCGPseudoRandomPermutation where
  max_value : Int
  modulo : Int
  modulo_and_mask : Nat
  c : Int
  a : Int
  ainv : Int
  deriving Repr, DecidableEq

namespace LCGPseudoRandomPermutation

/-- The constructor: `_choose_modulo(max_value)` then `_choose_a()`.
For `max_value ≥ 1` the decremented operand of the smear is non-negative, so
the `Nat` smear equals the C++ `int64_t` computation (for `max_value = 0`
the C++ code divides by zero in `_modulo_multiplicative_inverse`, which is
undefined behaviour; no claim is evaluated there). -/
def make (max_value : Int) : LCGPseudoRandomPermutation :=
  let smeared := smearBits (max_value - 1).toNat
  let modulo : Int := (smeared : Int) + 1
  let modulo_and_mask : Nat := smeared ||| (smeared + 1)
  let a : Int := 5
  let ainv := moduloMultiplicativeInverse a modulo
  { max_value, modulo, modulo_and_mask, c := 1, a, ainv }

/-- The cycle-walking do-while loop shared by `f` and `finv`, with explicit
fuel (the step is applied at least once, and the loop stops at the first
value `≤ max_value`). -/
def walk (step : Int → Int) (maxValue : Int) : Nat → Int → Option Int
  | 0, _ => none
  | fuel + 1, n =>
    let m := step n
    if m ≤ maxValue then some m else walk step maxValue fuel m

/-- `f(n)`: `n = _mod(n * _a + _c)` until `n ≤ _max_value`. -/
def f (P : LCGPseudoRandomPermutation) (n : Int) : Option Int :=
  walk (fun n => int64And (n * P.a + P.c) P.modulo_and_mask) P.max_value
    (P.modulo_and_mask + 1) n

/-- `finv(n)`: `n = _mod((n - _c) * _ainv)` until `n ≤ _max_value`. -/
def finv (P : LCGPseudoRandomPermutation) (n : Int) : Option Int :=
  walk (fun n => int64And ((n - P.c) * P.ainv) P.modulo_and_mask) P.max_value
    (P.modulo_and_mask + 1) n

end LCGPseudoRandomPermutation

/-- C9 (the code violates the claim): with `max_value = 8` the constructor
chooses `_modulo = 8`, `_modulo_and_mask = 15` and `_ainv = 5` (the inverse
of 5 modulo 8), but `_mod` reduces modulo 16, where `5 · 5 = 25 ≡ 9 ≠ 1`.
Hence `f(1) = (1·5+1) & 15 = 6`, while
`finv(6) = (6−1)·5 & 15 = 9 > 8`, then `(9−1)·5 & 15 = 8`, so
`finv(f(1)) = 8 ≠ 1`. -/
theorem lcg_roundtrip_failure :
    (LCGPseudoRandomPermutation.make 8).f 1 = some 6 ∧
    (LCGPseudoRandomPermutation.make 8).finv 6 = some 8 ∧
    ¬ ((LCGPseudoRandomPermutation.make 8).f 1).bind
        ((LCGPseudoRandomPermutation.make 8).finv) = some 1 := by
  refine ⟨by decide, by decide, by decide⟩

/-! ## Submission wire format

Modelled from the spec: `serializeBlocksForTransmission` (producer side) and
`parseIncomingMessage` (receiver side) of
`BlockSubmissionCommunication` live in `restore/block_submission.hpp`, which
is not under `src/` — only their unit tests are
(`test_block_submission.cpp`). Following the spec's wire-format section, a
per-destination message is a concatenation of frames
`firstInternalId (u64 LE) ∥ lastInternalId (u64 LE, inclusive) ∥
(lastInternalId − firstInternalId + 1)·K payload bytes`; frames appear in
producer emission order, a block whose internal id continues the open frame
extends it, any other id closes the frame and opens a new one; parsing
yields one `(blockId, K payload bytes)` callback per id from `firstId` to
`lastId` of each frame, in frame order. Bytes are modelled as `Nat`s
(payload bytes pass through framing untouched). The model is validated
against the byte-level vectors of `test_block_submission.cpp` below. -/

/-- Little-endian base-256 digits, `k` bytes. -/
def leBytes : Nat → Nat → List Nat
  | 0, _ => []
  | k + 1, n => n % 256 :: leBytes k (n / 256)

/-- A `u64` as 8 little-endian bytes. -/
def u64Bytes (n : Nat) : List Nat := leBytes 8 n

/-- Reassemble a little-endian byte list into a number. -/
def decodeLE : List Nat → Nat
  | [] => 0
  | b :: bs => b + 256 * decodeLE bs

/-- One frame of a submission message. -/
structure Frame where
  firstId : Nat
  lastId : Nat
  payload : List Nat
  deriving Repr, DecidableEq

/-- The producer's per-destination cursor rule: group the emitted blocks
into maximal runs of consecutive internal ids, in emission order (a
consecutive id extends the open frame, any other id closes it and opens a
new one). -/
def pushFrame (id : Nat) (p : List Nat) : List Frame → List Frame
  | [] => [⟨id, id, p⟩]
  | f :: fs =>
    if f.firstId = id + 1 then ⟨id, f.lastId, p ++ f.payload⟩ :: fs
    else ⟨id, id, p⟩ :: f :: fs

def framesOf : List (Nat × List Nat) → List Frame
  | [] => []
  | (id, p) :: rest => pushFrame id p (framesOf rest)

/-- Serialize frames: `firstId ∥ lastId ∥ payload` each, concatenated. -/
def serializeFrames (fs : List Frame) : List Nat :=
  (fs.map fun f => u64Bytes f.firstId ++ u64Bytes f.lastId ++ f.payload).flatten

/-- The bytes `serializeBlocksForTransmission` appends to one destination's
send buffer, given the `(internalId, K serialized bytes)` blocks emitted for
that destination in producer order. -/
def buildSendBuffer (emissions : List (Nat × List Nat)) : List Nat :=
  serializeFrames (framesOf emissions)

/-- The per-block callback invocations `parseIncomingMessage` makes for one
frame: `(firstId + i, payload bytes i·K … i·K+K−1)` for each offset `i`. -/
def blocksOfFrame (K : Nat) (f : Frame) : List (Nat × List Nat) :=
  (List.range (f.lastId - f.firstId + 1)).map fun i =>
    (f.firstId + i, (f.payload.drop (i * K)).take K)

/-- `parseIncomingMessage`: walk the message, reading per frame the two
8-byte ids and then `(lastId − firstId + 1)·K` payload bytes; `none` models
a malformed message (the C++ walks off the received byte count). -/
def parseMessage (K : Nat) (bs : List Nat) : Option (List (Nat × List Nat)) :=
  if bs.isEmpty then some []
  else if _h16 : bs.length < 16 then none
  else
    let firstId := decodeLE (bs.take 8)
    let lastId := decodeLE ((bs.drop 8).take 8)
    if lastId < firstId then none
    else
      let count := lastId - firstId + 1
      let body := bs.drop 16
      if body.length < count * K then none
      else
        match parseMessage K (body.drop (count * K)) with
        | none => none
        | some tail =>
          some (((List.range count).map fun i =>
            (firstId + i, ((body.take (count * K)).drop (i * K)).take K)) ++ tail)
  termination_by bs.length
  decreasing_by simp; omega

/-! ### Framing round-trip lemmas -/

lemma leBytes_length (k : Nat) : ∀ n, (leBytes k n).length = k := by
  induction k with
  | zero => intro n; rfl
  | succ k ih => intro n; simp [leBytes, ih]

lemma decodeLE_leBytes (k : Nat) : ∀ n, n < 256 ^ k → decodeLE (leBytes k n) = n := by
  induction k with
  | zero => intro n hn; interval_cases n; rfl
  | succ k ih =>
    intro n hn
    have hdiv : n / 256 < 256 ^ k := by
      rw [Nat.div_lt_iff_lt_mul (by omega)]
      calc n < 256 ^ (k + 1) := hn
        _ = 256 ^ k * 256 := by rw [Nat.pow_succ]
    rw [leBytes, decodeLE, ih _ hdiv]
    omega

lemma u64Bytes_length (n : Nat) : (u64Bytes n).length = 8 := leBytes_length 8 n

lemma decodeLE_u64Bytes {n : Nat} (hn : n < 2 ^ 64) : decodeLE (u64Bytes n) = n :=
  decodeLE_leBytes 8 n (by norm_num at hn ⊢; omega)

/-- Well-formedness of a frame: inclusive bounds in order, ids encodable in
64 bits, payload of exactly one `K`-byte record per id. -/
def FrameOk (K : Nat) (f : Frame) : Prop :=
  f.firstId ≤ f.lastId ∧ f.lastId < 2 ^ 64 ∧
  f.payload.length = (f.lastId - f.firstId + 1) * K

lemma framesOf_ne_nil (e : Nat × List Nat) (rest : List (Nat × List Nat)) :
    framesOf (e :: rest) ≠ [] := by
  obtain ⟨id, p⟩ := e
  rw [framesOf]
  rcases framesOf rest with _ | ⟨g, gs⟩
  · simp [pushFrame]
  · rw [pushFrame]
    split_ifs <;> simp

lemma framesOf_ok (K : Nat) : ∀ es : List (Nat × List Nat),
    (∀ e ∈ es, e.2.length = K) → (∀ e ∈ es, e.1 < 2 ^ 64) →
    ∀ f ∈ framesOf es, FrameOk K f := by
  intro es
  induction es with
  | nil => simp [framesOf]
  | cons e rest ih =>
    obtain ⟨id, p⟩ := e
    intro hK hid f hf
    have hp : p.length = K := hK (id, p) (List.mem_cons_self _ _)
    have hid0 : id < 2 ^ 64 := hid (id, p) (List.mem_cons_self _ _)
    have hKr : ∀ e ∈ rest, e.2.length = K := fun e he => hK e (List.mem_cons_of_mem _ he)
    have hidr : ∀ e ∈ rest, e.1 < 2 ^ 64 := fun e he => hid e (List.mem_cons_of_mem _ he)
    rw [framesOf] at hf
    rcases hrest : framesOf rest with _ | ⟨g, gs⟩ <;> rw [hrest, pushFrame] at hf
    · simp only [List.mem_singleton] at hf
      subst hf
      exact ⟨le_refl _, hid0, by simp [hp]⟩
    · have hg : FrameOk K g := ih hKr hidr g (by rw [hrest]; exact List.mem_cons_self _ _)
      by_cases hcons : g.firstId = id + 1
      · rw [if_pos hcons] at hf
        rcases List.mem_cons.mp hf with hfeq | hftail
        · subst hfeq
          obtain ⟨hg1, hg2, hg3⟩ := hg
          refine ⟨(by omega : id ≤ g.lastId), hg2, ?_⟩
          show (p ++ g.payload).length = (g.lastId - id + 1) * K
          rw [List.length_append, hp, hg3,
            (by omega : g.lastId - id + 1 = (g.lastId - g.firstId + 1) + 1)]
          ring
        · exact ih hKr hidr f (by rw [hrest]; exact List.mem_cons_of_mem _ hftail)
      · rw [if_neg hcons] at hf
        rcases List.mem_cons.mp hf with hfeq | hftail
        · subst hfeq
          exact ⟨le_refl _, hid0, by simp [hp]⟩
        · exact ih hKr hidr f (by rw [hrest]; exact hftail)

lemma blocksOfFrame_single (K id : Nat) (p : List Nat) (hp : p.length = K) :
    blocksOfFrame K ⟨id, id, p⟩ = [(id, p)] := by
  unfold blocksOfFrame
  rw [Nat.sub_self, (by decide : List.range (0 + 1) = [0]), List.map_cons, List.map_nil,
    Nat.add_zero, Nat.zero_mul, List.drop_zero, ← hp, List.take_length]

lemma blocksOfFrame_merge (K id lastId : Nat) (p q : List Nat) (hp : p.length = K)
    (hle : id + 1 ≤ lastId) :
    blocksOfFrame K ⟨id, lastId, p ++ q⟩ = (id, p) :: blocksOfFrame K ⟨id + 1, lastId, q⟩ := by
  unfold blocksOfFrame
  have hcnt : lastId - id + 1 = (lastId - (id + 1) + 1) + 1 := by omega
  rw [hcnt, List.range_succ_eq_map, List.map_cons, List.map_map]
  congr 1
  · show (id + 0, ((p ++ q).drop (0 * K)).take K) = (id, p)
    rw [Nat.add_zero, Nat.zero_mul, List.drop_zero, ← hp, List.take_left]
  · apply List.map_congr_left
    intro i hi
    show (id + Nat.succ i, ((p ++ q).drop (Nat.succ i * K)).take K) = _
    simp only [Prod.mk.injEq]
    constructor
    · omega
    · have hmul : Nat.succ i * K = p.length + i * K := by rw [hp, Nat.succ_mul]; ring
      rw [hmul, ← List.drop_drop, List.drop_left]

/-- Parsing inverts framing: the blocks recovered from the frames of an
emission list are the emissions themselves. -/
lemma flatten_blocksOfFrames (K : Nat) : ∀ es : List (Nat × List Nat),
    (∀ e ∈ es, e.2.length = K) → (∀ e ∈ es, e.1 < 2 ^ 64) →
    ((framesOf es).map (blocksOfFrame K)).flatten = es := by
  intro es
  induction es with
  | nil => intro _ _; rfl
  | cons e rest ih =>
    obtain ⟨id, p⟩ := e
    intro hK hid
    have hp : p.length = K := hK (id, p) (List.mem_cons_self _ _)
    have hKr : ∀ e ∈ rest, e.2.length = K := fun e he => hK e (List.mem_cons_of_mem _ he)
    have hidr : ∀ e ∈ rest, e.1 < 2 ^ 64 := fun e he => hid e (List.mem_cons_of_mem _ he)
    have ihr := ih hKr hidr
    rw [framesOf]
    rcases hrest : framesOf rest with _ | ⟨g, gs⟩ <;> rw [hrest] at ihr
    · rw [pushFrame, List.map_cons, List.map_nil, List.flatten_cons, List.flatten_nil,
        blocksOfFrame_single K id p hp, List.append_nil]
      simp only [List.map_nil, List.flatten_nil] at ihr
      rw [← ihr]
    · rw [pushFrame]
      by_cases hcons : g.firstId = id + 1
      · rw [if_pos hcons]
        have hg : FrameOk K g :=
          framesOf_ok K rest hKr hidr g (by rw [hrest]; exact List.mem_cons_self _ _)
        obtain ⟨hg1, hg2, hg3⟩ := hg
        have hmerge : blocksOfFrame K ⟨id, g.lastId, p ++ g.payload⟩
            = (id, p) :: blocksOfFrame K ⟨id + 1, g.lastId, g.payload⟩ :=
          blocksOfFrame_merge K id g.lastId p g.payload hp (by omega)
        have hgeta : (⟨id + 1, g.lastId, g.payload⟩ : Frame) = g := by
          cases g
          simp_all
        rw [List.map_cons, List.flatten_cons, hmerge, hgeta, List.cons_append,
          ← List.flatten_cons, ← List.map_cons, ihr]
      · rw [if_neg hcons, List.map_cons, List.flatten_cons, blocksOfFrame_single K id p hp,
          List.singleton_append, ihr]

/-- Parsing a serialized frame list recovers the per-block callback list,
frame by frame. -/
lemma parse_serializeFrames (K : Nat) : ∀ fs : List Frame, (∀ f ∈ fs, FrameOk K f) →
    parseMessage K (serializeFrames fs) = some ((fs.map (blocksOfFrame K)).flatten) := by
  intro fs
  induction fs with
  | nil =>
    intro _
    rw [serializeFrames, List.map_nil, List.flatten_nil, parseMessage]
    rfl
  | cons f fs ih =>
    intro hok
    obtain ⟨hle, hlt, hlen⟩ := hok f (List.mem_cons_self _ _)
    have ihr := ih (fun g hg => hok g (List.mem_cons_of_mem _ hg))
    have hflt : f.firstId < 2 ^ 64 := lt_of_le_of_lt hle hlt
    have hser : serializeFrames (f :: fs)
        = u64Bytes f.firstId ++ (u64Bytes f.lastId ++ (f.payload ++ serializeFrames fs)) := by
      rw [serializeFrames, List.map_cons, List.flatten_cons, ← serializeFrames]
      simp [List.append_assoc]
    have hlen8a : (u64Bytes f.firstId).length = 8 := u64Bytes_length _
    have hlen8b : (u64Bytes f.lastId).length = 8 := u64Bytes_length _
    set R := serializeFrames fs with hR
    set bs := u64Bytes f.firstId ++ (u64Bytes f.lastId ++ (f.payload ++ R)) with hbs
    have hlentot : bs.length = 16 + (f.payload.length + R.length) := by
      simp [hbs, hlen8a, hlen8b]
      omega
    have htake8 : bs.take 8 = u64Bytes f.firstId := by
      rw [hbs, ← hlen8a, List.take_left]
    have hdrop8 : bs.drop 8 = u64Bytes f.lastId ++ (f.payload ++ R) := by
      rw [hbs, ← hlen8a, List.drop_left]
    have htake2 : (bs.drop 8).take 8 = u64Bytes f.lastId := by
      rw [hdrop8, ← hlen8b, List.take_left]
    have hdrop16 : bs.drop 16 = f.payload ++ R := by
      rw [(by norm_num : (16 : Nat) = 8 + 8), ← List.drop_drop, hdrop8, ← hlen8b,
        List.drop_left]
    have htakebody : (f.payload ++ R).take ((f.lastId - f.firstId + 1) * K) = f.payload := by
      rw [← hlen, List.take_left]
    have hdropbody : (f.payload ++ R).drop ((f.lastId - f.firstId + 1) * K) = R := by
      rw [← hlen, List.drop_left]
    rw [hser, parseMessage]
    rw [if_neg (by rw [List.isEmpty_iff]; exact List.ne_nil_of_length_pos (by omega))]
    rw [dif_neg (by omega)]
    simp only [htake8, htake2, hdrop16, decodeLE_u64Bytes hflt, decodeLE_u64Bytes hlt]
    rw [if_neg (Nat.not_lt.mpr hle)]
    rw [if_neg (by rw [List.length_append, hlen]; omega)]
    rw [htakebody, hdropbody, hR, ihr]
    rw [List.map_cons, List.flatten_cons]
    rfl

/-- C5: each per-destination submission message is a concatenation of frames
`firstInternalId (u64) ∥ lastInternalId (u64, inclusive) ∥
(lastInternalId − firstInternalId + 1)·K payload bytes`, in producer
emission order, and parsing inverts the framing: it yields exactly one
`(blockId, K-byte payload)` callback per block id of every frame, in frame
order — i.e. parsing the built buffer returns precisely the emitted
blocks. -/
theorem submission_wire_format_roundtrip (K : Nat) (emissions : List (Nat × List Nat))
    (hK : ∀ e ∈ emissions, e.2.length = K) (hid : ∀ e ∈ emissions, e.1 < 2 ^ 64) :
    parseMessage K (buildSendBuffer emissions) = some emissions := by
  rw [buildSendBuffer, parse_serializeFrames K (framesOf emissions)
    (framesOf_ok K emissions hK hid), flatten_blocksOfFrames K emissions hK hid]

/-- C5 (witness): the three 2-byte blocks of
`BlockSubmissionTest.SerializeBlockForSubmission`. -/
theorem submission_wire_format_roundtrip_witness :
    (∀ e ∈ ([(0, [0, 0]), (1, [10, 1]), (2, [0, 1])] : List (Nat × List Nat)),
      e.2.length = 2) ∧
    (∀ e ∈ ([(0, [0, 0]), (1, [10, 1]), (2, [0, 1])] : List (Nat × List Nat)),
      e.1 < 2 ^ 64) ∧
    parseMessage 2 (buildSendBuffer [(0, [0, 0]), (1, [10, 1]), (2, [0, 1])]) =
      some [(0, [0, 0]), (1, [10, 1]), (2, [0, 1])] :=
  ⟨by decide, by decide,
   submission_wire_format_roundtrip 2 [(0, [0, 0]), (1, [10, 1]), (2, [0, 1])]
     (by decide) (by decide)⟩

/-- Validation of the producer model against the expected send buffer of
`BlockSubmissionTest.SerializeBlockForSubmission`: blocks 0..2 of 2 bytes
each become one frame `0 ∥ 2 ∥ 6 payload bytes` (22 bytes). -/
theorem buildSendBuffer_matches_test_vector :
    buildSendBuffer [(0, [0, 0]), (1, [10, 1]), (2, [0, 1])] =
      [0, 0, 0, 0, 0, 0, 0, 0,
       2, 0, 0, 0, 0, 0, 0, 0,
       0, 0, 10, 1, 0, 1] := by
  decide

/-- Validation of the parsing model against `message1` of
`BlockSubmissionTest.ParseIncomingMessages`: two single-block frames, ids 1
and 3 with payloads `0x0202` and `0x2312` (little-endian bytes). -/
theorem parseMessage_matches_test_vector :
    parseMessage 2
      [1, 0, 0, 0, 0, 0, 0, 0,
       1, 0, 0, 0, 0, 0, 0, 0,
       0x02, 0x02,
       3, 0, 0, 0, 0, 0, 0, 0,
       3, 0, 0, 0, 0, 0, 0, 0,
       0x12, 0x23] =
      some [(1, [0x02, 0x02]), (3, [0x12, 0x23])] := by
  simp [parseMessage, decodeLE]
  decide

/-! ## `RankManager` (`mpi_context.hpp`)

An `MPI_Group` is an ordered set of processes; we model it as a list of
process identities (`List Nat`), rank `i` of a group being position `i`.
`MPI_Group_difference(a, b)` keeps the processes of `a` that are not in
`b`, in `a`'s order; `MPI_Group_translate_ranks(from, ranks, to)` maps each
listed rank of `from` to the rank its process holds in `to`
(`MPI_UNDEFINED`, modelled `none`, when the process is not in `to`); and
`MPI_Group_union(current, MPI_GROUP_EMPTY)` is the current group. -/

structure RankManager where
  originalGroup : List Nat
  currentGroup : List Nat
  lastDiedRanksRequestedGroup : List Nat
  deriving Repr, DecidableEq

namespace RankManager

/-- The constructor: all three groups are taken from the communicator. -/
def make (commGroup : List Nat) : RankManager := ⟨commGroup, commGroup, commGroup⟩

/-- Translate one process to its rank in `g`
(`MPI_Group_translate_ranks` for a single rank). -/
def rankIn (g : List Nat) (p : Nat) : Option Nat :=
  if g.contains p then some (List.indexOf p g) else none

/-- `getRanksDiedSinceLastCall`: size and members of
`difference = lastDiedRanksRequestedGroup ∖ currentGroup`, translated to
ranks of the original group; afterwards the snapshot becomes the current
group. -/
def getRanksDiedSinceLastCall (rm : RankManager) : List (Option Nat) × RankManager :=
  let difference := rm.lastDiedRanksRequestedGroup.filter
    fun p => !(rm.currentGroup.contains p)
  let originalRankIds := difference.map (rankIn rm.originalGroup)
  (originalRankIds, { rm with lastDiedRanksRequestedGroup := rm.currentGroup })

end RankManager

/-- C7: `getRanksDiedSinceLastCall` returns exactly the original ranks of
the peers that are in the snapshot taken at the previous invocation (at
construction, for the first invocation — see `RankManager.make`) but not in
the current group, in snapshot order; it updates the snapshot to the
current group; and an immediately repeated call with an unchanged group
returns the empty list. The hypothesis states that every snapshot member
has an original rank (otherwise the MPI translation yields
`MPI_UNDEFINED`). -/
theorem getRanksDiedSinceLastCall_spec (rm : RankManager)
    (hsub : ∀ p ∈ rm.lastDiedRanksRequestedGroup, p ∈ rm.originalGroup) :
    rm.getRanksDiedSinceLastCall.1 =
      (rm.lastDiedRanksRequestedGroup.filter
        fun p => !(rm.currentGroup.contains p)).map
          (fun p => some (List.indexOf p rm.originalGroup)) ∧
    rm.getRanksDiedSinceLastCall.2.lastDiedRanksRequestedGroup = rm.currentGroup ∧
    rm.getRanksDiedSinceLastCall.2.getRanksDiedSinceLastCall.1 = [] := by
  refine ⟨?_, rfl, ?_⟩
  · apply List.map_congr_left
    intro p hp
    have hmem : p ∈ rm.lastDiedRanksRequestedGroup := (List.mem_filter.mp hp).1
    have horig : p ∈ rm.originalGroup := hsub p hmem
    rw [RankManager.rankIn, if_pos (List.elem_eq_true_of_mem horig)]
  · show ((rm.currentGroup.filter fun p => !(rm.currentGroup.contains p)).map _) = []
    rw [List.filter_eq_nil_iff.mpr, List.map_nil]
    intro p hp
    simp [List.elem_eq_true_of_mem hp, hp]

/-- C7 (witness): processes 10, 11, 12 originally; 11 has died. -/
theorem getRanksDiedSinceLastCall_spec_witness :
    (∀ p ∈ ([10, 11, 12] : List Nat), p ∈ ([10, 11, 12] : List Nat)) ∧
    ((RankManager.mk [10, 11, 12] [10, 12] [10, 11, 12]).getRanksDiedSinceLastCall.1 =
      (([10, 11, 12] : List Nat).filter
        fun p => !(([10, 12] : List Nat).contains p)).map
          (fun p => some (List.indexOf p ([10, 11, 12] : List Nat))) ∧
     (RankManager.mk [10, 11, 12] [10, 12]
        [10, 11, 12]).getRanksDiedSinceLastCall.2.lastDiedRanksRequestedGroup =
       [10, 12] ∧
     (RankManager.mk [10, 11, 12] [10, 12]
        [10, 11, 12]).getRanksDiedSinceLastCall.2.getRanksDiedSinceLastCall.1 = []) :=
  ⟨by decide, getRanksDiedSinceLastCall_spec (RankManager.mk [10, 11, 12] [10, 12] [10, 11, 12])
    (by decide)⟩

/-! ## `pushBlocksOriginalRankIds` (non-const overload, `core.hpp`) -/

/-- The in-place `std::transform` at the top of `pushBlocksOriginalRankIds`:
each `(blockRange, destinationOriginalRank)` entry's rank is replaced by
`_mpiContext.getCurrentRank(rank).value()`. `value()` on an empty optional
— the destination rank has died — throws `std::bad_optional_access`. -/
def transformRanks (getCurrentRank : Nat → Option Nat) :
    List ((Nat × Nat) × Nat) → Except CppError (List ((Nat × Nat) × Nat))
  | [] => .ok []
  | (range, destRank) :: rest =>
    match getCurrentRank destRank with
    | none => .error .badOptionalAccess
    | some cur => (transformRanks getCurrentRank rest).map fun rs => (range, cur) :: rs

/-- `pushBlocksOriginalRankIds(blockRanges, handler)`: overwrite the
destination ranks in the caller's `blockRanges` vector with current ranks,
then run `pushBlocksCurrentRankIds` (the projection / transfer /
deserialize pipeline, which performs the data exchange — an opaque
continuation here). Returns the caller-visible `blockRanges` contents on
success. -/
def pushBlocksOriginalRankIds (getCurrentRank : Nat → Option Nat)
    (blockRanges : List ((Nat × Nat) × Nat))
    (pushBlocksCurrentRankIds : List ((Nat × Nat) × Nat) → Except CppError Unit) :
    Except CppError (List ((Nat × Nat) × Nat)) :=
  match transformRanks getCurrentRank blockRanges with
  | .error e => .error e
  | .ok rs =>
    match pushBlocksCurrentRankIds rs with
    | .error e => .error e
    | .ok _ => .ok rs

lemma transformRanks_dead (getCurrentRank : Nat → Option Nat) :
    ∀ blockRanges : List ((Nat × Nat) × Nat),
      (∃ e ∈ blockRanges, getCurrentRank e.2 = none) →
      transformRanks getCurrentRank blockRanges = .error .badOptionalAccess := by
  intro blockRanges
  induction blockRanges with
  | nil => rintro ⟨e, he, _⟩; cases he
  | cons e rest ih =>
    rintro ⟨d, hd, hdead⟩
    obtain ⟨range, destRank⟩ := e
    rw [transformRanks]
    rcases hcur : getCurrentRank destRank with _ | cur
    · rfl
    · rcases List.mem_cons.mp hd with rfl | hdrest
      · rw [hcur] at hdead; cases hdead
      · rw [ih ⟨d, hdrest, hdead⟩]
        rfl

lemma transformRanks_alive (getCurrentRank : Nat → Option Nat) :
    ∀ blockRanges : List ((Nat × Nat) × Nat),
      (∀ e ∈ blockRanges, (getCurrentRank e.2).isSome) →
      transformRanks getCurrentRank blockRanges =
        .ok (blockRanges.map fun e => (e.1, (getCurrentRank e.2).getD 0)) := by
  intro blockRanges
  induction blockRanges with
  | nil => intro _; rfl
  | cons e rest ih =>
    intro halive
    obtain ⟨range, destRank⟩ := e
    have hhead := halive (range, destRank) (List.mem_cons_self _ _)
    rw [transformRanks]
    rcases hcur : getCurrentRank destRank with _ | cur
    · rw [hcur] at hhead; cases hhead
    · rw [ih fun d hd => halive d (List.mem_cons_of_mem _ hd)]
      simp [Except.map, hcur]

/-- C10: the non-const `pushBlocksOriginalRankIds` overwrites each
destination original rank in the caller's `blockRanges` with that rank's
current rank, and requires every destination rank to be alive: if some
destination rank has died (`getCurrentRank` returns `nullopt`), the call
raises `std::bad_optional_access` before any data is exchanged — the
result is the same error for every possible behaviour of the exchange
pipeline `k`. -/
theorem pushBlocksOriginalRankIds_spec (getCurrentRank : Nat → Option Nat)
    (blockRanges : List ((Nat × Nat) × Nat))
    (k : List ((Nat × Nat) × Nat) → Except CppError Unit) :
    ((∃ e ∈ blockRanges, getCurrentRank e.2 = none) →
      pushBlocksOriginalRankIds getCurrentRank blockRanges k =
        .error .badOptionalAccess) ∧
    ((∀ e ∈ blockRanges, (getCurrentRank e.2).isSome) →
      pushBlocksOriginalRankIds getCurrentRank blockRanges k =
        match k (blockRanges.map fun e => (e.1, (getCurrentRank e.2).getD 0)) with
        | .error e => .error e
        | .ok _ => .ok (blockRanges.map fun e => (e.1, (getCurrentRank e.2).getD 0))) := by
  constructor
  · intro hdead
    rw [pushBlocksOriginalRankIds, transformRanks_dead getCurrentRank blockRanges hdead]
  · intro halive
    rw [pushBlocksOriginalRankIds, transformRanks_alive getCurrentRank blockRanges halive]

/-- C10 (witness): destination rank 1 has died (first conjunct); all
destination ranks alive and renumbered (second conjunct). -/
theorem pushBlocksOriginalRankIds_spec_witness :
    ((∃ e ∈ ([((0, 2), 1)] : List ((Nat × Nat) × Nat)),
        (fun r => if r = 1 then (none : Option Nat) else some (r + 5)) e.2 = none) ∧
      pushBlocksOriginalRankIds (fun r => if r = 1 then none else some (r + 5))
        [((0, 2), 1)] (fun _ => .ok ()) = .error .badOptionalAccess) ∧
    ((∀ e ∈ ([((0, 2), 3), ((7, 4), 2)] : List ((Nat × Nat) × Nat)),
        ((fun r => if r = 1 then (none : Option Nat) else some (r + 5)) e.2).isSome) ∧
      pushBlocksOriginalRankIds (fun r => if r = 1 then none else some (r + 5))
        [((0, 2), 3), ((7, 4), 2)] (fun _ => .ok ()) =
        .ok [((0, 2), 8), ((7, 4), 7)]) :=
  ⟨⟨by decide,
    (pushBlocksOriginalRankIds_spec (fun r => if r = 1 then none else some (r + 5))
      [((0, 2), 1)] (fun _ => .ok ())).1 (by decide)⟩,
   ⟨by decide,
    by rw [(pushBlocksOriginalRankIds_spec (fun r => if r = 1 then none else some (r + 5))
        [((0, 2), 3), ((7, 4), 2)] (fun _ => .ok ())).2 (by decide)]
       rfl⟩⟩

end ReStoreModel
